import Mathlib

/-!
Verification of the NEU quality-control capture-to-verdict pipeline.

The frontend multi-view capture (`frontend/src/components/Viewer3D.tsx`) is
embedded directly from the TypeScript source.  The backend inference module
(`backend/inference/neu_inference.py`) is referenced throughout the
repository (tests, docs, `verify_setup.sh`) but its code is not part of the
source tree given here, so the Normalizer, the fallback classifier and the
view aggregator are modelled from the specification (each such definition
says so in its doc comment).

Conventions of the embedding:
* 8-bit pixel channels are `ℤ` values constrained to `[0,255]`;
* floating-point quantities are modelled exactly by `ℚ`;
* a canvas store (`Uint8ClampedArray`) rounds to nearest, ties to even,
  then clamps to `[0,255]` (`clampU8`);
* JavaScript strings are modelled as `List Char`, byte strings as `List ℕ`.
-/

namespace NeuQC

/-- Round a rational to the nearest integer, ties to even — the rounding
performed when a fractional value is stored into a `Uint8ClampedArray`
cell of an HTML canvas. -/
def rhe (q : ℚ) : ℤ :=
  let f := ⌊q⌋
  let r := q - f
  if r < 1/2 then f
  else if 1/2 < r then f + 1
  else if f % 2 = 0 then f else f + 1

/-- Store a rational into an 8-bit clamped cell: round (ties to even) and
clamp into `[0, 255]`. -/
def clampU8 (q : ℚ) : ℤ := min 255 (max 0 (rhe q))

/-- An RGB pixel: three 8-bit channels `(r, g, b)`. -/
abbrev Pix := ℤ × ℤ × ℤ

/-- The luminance of a pixel, `0.299·R + 0.587·G + 0.114·B`, exactly the
float expression of `Viewer3D.tsx` line 186. -/
def lumaQ (p : Pix) : ℚ := (299 * p.1 + 587 * p.2.1 + 114 * p.2.2) / 1000

theorem rhe_nonneg {q : ℚ} (hq : 0 ≤ q) : 0 ≤ rhe q := by
  have hf : (0 : ℤ) ≤ ⌊q⌋ := Int.floor_nonneg.mpr hq
  unfold rhe
  dsimp only
  split
  · exact hf
  · split
    · omega
    · split
      · exact hf
      · omega

theorem rhe_le_int {q : ℚ} {z : ℤ} (hq : q ≤ (z : ℚ)) : rhe q ≤ z := by
  have hf : ⌊q⌋ ≤ z := by
    have := Int.floor_le_floor hq
    simpa using this
  have hsucc : ¬ q - ⌊q⌋ < 1/2 → ⌊q⌋ + 1 ≤ z := by
    intro hr
    have h1 : (⌊q⌋ : ℚ) + 1/2 ≤ q := by linarith [not_lt.mp hr]
    by_contra hzf
    have hzq : z ≤ ⌊q⌋ := by omega
    have : (z : ℚ) ≤ (⌊q⌋ : ℚ) := by exact_mod_cast hzq
    linarith
  unfold rhe
  dsimp only
  split
  · exact hf
  · rename_i hr1
    split
    · exact hsucc hr1
    · split
      · exact hf
      · exact hsucc hr1

theorem clampU8_nonneg (q : ℚ) : 0 ≤ clampU8 q :=
  le_min (by norm_num) (le_max_left 0 (rhe q))

theorem clampU8_le (q : ℚ) : clampU8 q ≤ 255 := min_le_left _ _

theorem clampU8_eq_rhe {q : ℚ} (h0 : 0 ≤ q) (h255 : q ≤ 255) :
    clampU8 q = rhe q := by
  have hn : 0 ≤ rhe q := rhe_nonneg h0
  have hl : rhe q ≤ 255 := rhe_le_int (by exact_mod_cast h255)
  unfold clampU8
  rw [max_eq_right hn, min_eq_right hl]

/-! ### Frontend multi-view capture (`Viewer3D.tsx`, `captureAllViews`) -/

/-- A 400×400 source raster: the WebGL canvas contents that
`captureAllViews` reads with `ctx.drawImage(canvas, 0, 0, 200, 200)`.
A 2:1 source size is fixed so the browser downscale has an exact model. -/
abbrev SrcImg := Fin 400 → Fin 400 → Pix

/-- The `drawImage` downscale of `Viewer3D.tsx` line 180: the source canvas
is drawn onto the 200×200 temp canvas.  With image smoothing enabled (the
canvas default) a 2:1 downscale averages each 2×2 block per channel; the
result lands in the temp canvas's 8-bit cells. -/
def drawImageResize (src : SrcImg) : Fin 200 → Fin 200 → Pix := fun i j =>
  let p00 := src ⟨2 * i.val, by have := i.isLt; omega⟩ ⟨2 * j.val, by have := j.isLt; omega⟩
  let p01 := src ⟨2 * i.val, by have := i.isLt; omega⟩ ⟨2 * j.val + 1, by have := j.isLt; omega⟩
  let p10 := src ⟨2 * i.val + 1, by have := i.isLt; omega⟩ ⟨2 * j.val, by have := j.isLt; omega⟩
  let p11 := src ⟨2 * i.val + 1, by have := i.isLt; omega⟩ ⟨2 * j.val + 1, by have := j.isLt; omega⟩
  (clampU8 ((p00.1 + p01.1 + p10.1 + p11.1 : ℚ) / 4),
   clampU8 ((p00.2.1 + p01.2.1 + p10.2.1 + p11.2.1 : ℚ) / 4),
   clampU8 ((p00.2.2 + p01.2.2 + p10.2.2 + p11.2.2 : ℚ) / 4))

/-- The grayscale loop of `Viewer3D.tsx` lines 183–189: for each pixel the
float `gray = 0.299*R + 0.587*G + 0.114*B` is computed and written back to
all three channels of the `Uint8ClampedArray` (which rounds and clamps). -/
def grayscaleStep (img : Fin 200 → Fin 200 → Pix) : Fin 200 → Fin 200 → Pix :=
  fun i j =>
    let g := clampU8 (lumaQ (img i j))
    (g, g, g)

/-- The pixel data produced by the body of `captureAllViews`
(`Viewer3D.tsx` lines 180–189) as one function: `drawImage` onto a 200×200
canvas first, then the in-place grayscale pass over `imageData.data`. -/
def capturePixels (src : SrcImg) : Fin 200 → Fin 200 → Pix := fun i j =>
  let p00 := src ⟨2 * i.val, by have := i.isLt; omega⟩ ⟨2 * j.val, by have := j.isLt; omega⟩
  let p01 := src ⟨2 * i.val, by have := i.isLt; omega⟩ ⟨2 * j.val + 1, by have := j.isLt; omega⟩
  let p10 := src ⟨2 * i.val + 1, by have := i.isLt; omega⟩ ⟨2 * j.val, by have := j.isLt; omega⟩
  let p11 := src ⟨2 * i.val + 1, by have := i.isLt; omega⟩ ⟨2 * j.val + 1, by have := j.isLt; omega⟩
  let r := clampU8 ((p00.1 + p01.1 + p10.1 + p11.1 : ℚ) / 4)
  let g := clampU8 ((p00.2.1 + p01.2.1 + p10.2.1 + p11.2.1 : ℚ) / 4)
  let b := clampU8 ((p00.2.2 + p01.2.2 + p10.2.2 + p11.2.2 : ℚ) / 4)
  let gray := clampU8 (lumaQ (r, g, b))
  (gray, gray, gray)

/-- The pipeline in the order asserted by the specification (§4.1): convert
the full-resolution raster to 8-bit luminance first, and only then downscale
to 200×200.  This definition follows the spec's words; it is the comparison
point for the order-of-operations claim about the capture code. -/
def grayThenResize (src : SrcImg) : Fin 200 → Fin 200 → Pix := fun i j =>
  let g00 := clampU8 (lumaQ (src ⟨2 * i.val, by have := i.isLt; omega⟩ ⟨2 * j.val, by have := j.isLt; omega⟩))
  let g01 := clampU8 (lumaQ (src ⟨2 * i.val, by have := i.isLt; omega⟩ ⟨2 * j.val + 1, by have := j.isLt; omega⟩))
  let g10 := clampU8 (lumaQ (src ⟨2 * i.val + 1, by have := i.isLt; omega⟩ ⟨2 * j.val, by have := j.isLt; omega⟩))
  let g11 := clampU8 (lumaQ (src ⟨2 * i.val + 1, by have := i.isLt; omega⟩ ⟨2 * j.val + 1, by have := j.isLt; omega⟩))
  let g := clampU8 ((g00 + g01 + g10 + g11 : ℚ) / 4)
  (g, g, g)

/-- A concrete source raster: the pixels `(0,0)`, `(0,1)` and `(1,0)` carry a
faint blue channel of 5, everything else is black. -/
def exSrc : SrcImg := fun x y =>
  if x.val ≤ 1 ∧ y.val ≤ 1 ∧ ¬(x.val = 1 ∧ y.val = 1) then (0, 0, 5) else (0, 0, 0)

/-- On `exSrc` the two operation orders disagree at output pixel `(0,0)`:
the code (resize, then grayscale) yields channel value 0 there, while
luminance-first-then-resize yields 1. -/
theorem capture_order_matters : capturePixels exSrc ≠ grayThenResize exSrc := by
  intro h
  have h0 := congrFun (congrFun h ⟨0, by omega⟩) ⟨0, by omega⟩
  have hc : capturePixels exSrc ⟨0, by omega⟩ ⟨0, by omega⟩ = (0, 0, 0) := by
    simp only [capturePixels]
    norm_num [exSrc, lumaQ, clampU8, rhe]
  have hg : grayThenResize exSrc ⟨0, by omega⟩ ⟨0, by omega⟩ = (1, 1, 1) := by
    simp only [grayThenResize]
    norm_num [exSrc, lumaQ, clampU8, rhe]
  rw [hc, hg] at h0
  simp at h0

/-- C2 counterexample: the multi-view capture output on the concrete raster
`exSrc` is NOT the result of converting to luminance first and then
resizing, refuting the claimed order of operations. -/
theorem c2_grayscale_before_resize_counterexample :
    capturePixels exSrc ≠ grayThenResize exSrc :=
  capture_order_matters

/-- C2 (amended): in `captureAllViews` spatial resizing comes FIRST
(`ctx.drawImage` to 200×200, line 180) and grayscale conversion is applied
to the already-resized raster (lines 183–189); the capture output factors
as grayscale-after-resize, and this differs from the spec's
grayscale-before-resize order on some rasters (witnessed by `exSrc`). -/
theorem c2_resize_before_grayscale :
    (∀ src : SrcImg, capturePixels src = grayscaleStep (drawImageResize src)) ∧
      capturePixels exSrc ≠ grayThenResize exSrc := by
  constructor
  · intro src
    funext i j
    rfl
  · exact capture_order_matters

/-- C9: the grayscale pass of `captureAllViews` writes, at every pixel whose
channels are valid 8-bit values, the luminance `0.299·R + 0.587·G + 0.114·B`
(rounded by the 8-bit store) to all three channels, and the stored intensity
is again an 8-bit value in `[0, 255]`. -/
theorem c9_grayscale_is_luma (img : Fin 200 → Fin 200 → Pix)
    (i j : Fin 200)
    (hr0 : 0 ≤ (img i j).1) (hr1 : (img i j).1 ≤ 255)
    (hg0 : 0 ≤ (img i j).2.1) (hg1 : (img i j).2.1 ≤ 255)
    (hb0 : 0 ≤ (img i j).2.2) (hb1 : (img i j).2.2 ≤ 255) :
    grayscaleStep img i j =
      (rhe (lumaQ (img i j)), rhe (lumaQ (img i j)), rhe (lumaQ (img i j))) ∧
      0 ≤ rhe (lumaQ (img i j)) ∧ rhe (lumaQ (img i j)) ≤ 255 := by
  have hr1q : ((img i j).1 : ℚ) ≤ 255 := by exact_mod_cast hr1
  have hg1q : ((img i j).2.1 : ℚ) ≤ 255 := by exact_mod_cast hg1
  have hb1q : ((img i j).2.2 : ℚ) ≤ 255 := by exact_mod_cast hb1
  have hr0q : (0 : ℚ) ≤ ((img i j).1 : ℚ) := by exact_mod_cast hr0
  have hg0q : (0 : ℚ) ≤ ((img i j).2.1 : ℚ) := by exact_mod_cast hg0
  have hb0q : (0 : ℚ) ≤ ((img i j).2.2 : ℚ) := by exact_mod_cast hb0
  have hl0 : 0 ≤ lumaQ (img i j) := by
    unfold lumaQ
    positivity
  have hl255 : lumaQ (img i j) ≤ 255 := by
    unfold lumaQ
    rw [div_le_iff₀ (by norm_num)]
    linarith
  refine ⟨?_, rhe_nonneg hl0, rhe_le_int (by exact_mod_cast hl255)⟩
  unfold grayscaleStep
  dsimp only
  rw [clampU8_eq_rhe hl0 hl255]

/-- Witness for C9 at a concrete pixel value `(10, 20, 30)`. -/
theorem c9_grayscale_is_luma_witness :
    grayscaleStep (fun _ _ => ((10, 20, 30) : Pix)) ⟨0, by omega⟩ ⟨0, by omega⟩ =
      (rhe (lumaQ (10, 20, 30)), rhe (lumaQ (10, 20, 30)), rhe (lumaQ (10, 20, 30))) ∧
      0 ≤ rhe (lumaQ (10, 20, 30)) ∧ rhe (lumaQ (10, 20, 30)) ≤ 255 :=
  c9_grayscale_is_luma (fun _ _ => ((10, 20, 30) : Pix)) ⟨0, by omega⟩ ⟨0, by omega⟩
    (by norm_num) (by norm_num) (by norm_num) (by norm_num) (by norm_num) (by norm_num)

/-! ### Capture control flow (`Viewer3D.tsx` lines 159–206) -/

/-- What one iteration of the capture loop observes for a view: the canvas
may be missing or have zero width/height (line 167), `getContext` may return
null (line 177), the draw/encode steps may throw (caught at line 195), or a
data URL string is produced (line 191). -/
inductive CaptureOutcome
  | noCanvas
  | zeroDim
  | noCtx
  | throws
  | okURL (dataURL : List Char)

/-- Decidable comma test used to model the JavaScript `split(',')`. -/
def notComma (c : Char) : Bool := decide (c ≠ ',')

/-- `dataURL.split(',')[1]`: the JavaScript split cuts at every comma and
element 1 is the fragment between the first and the second comma — i.e. the
characters after the first comma, up to the next comma (or the end). -/
def jsSplitComma1 (s : List Char) : List Char :=
  ((s.dropWhile notComma).drop 1).takeWhile notComma

/-- `Viewer3D.tsx` line 192:
`dataURL.includes(',') ? dataURL.split(',')[1] : dataURL`. -/
def sanitizeURL (s : List Char) : List Char :=
  if ',' ∈ s then jsSplitComma1 s else s

/-- One loop iteration's contribution to `captures`: only a produced data
URL whose sanitized form has length ≥ 100 is pushed (line 194); every other
outcome is skipped. -/
def processOutcome (o : CaptureOutcome) : Option (List Char) :=
  match o with
  | .okURL url =>
    let s := sanitizeURL url
    if 100 ≤ s.length then some s else none
  | _ => none

/-- The whole capture run (`Viewer3D.tsx` lines 159–206): the loop collects
`captures` and the callback `onViewsCapture` is invoked (modelled by `some`)
exactly when `captures.length > 0` (line 205). -/
def captureAllViews (outs : List CaptureOutcome) : Option (List (List Char)) :=
  let captures := outs.filterMap processOutcome
  if captures.isEmpty then none else some captures

/-- The claim's description of sanitization: everything up to and including
the FIRST comma is removed (when a comma is present at all). -/
def stripThroughFirstComma (s : List Char) : List Char :=
  if ',' ∈ s then (s.dropWhile notComma).drop 1 else s

theorem takeWhile_of_all {α : Type} (p : α → Bool) :
    ∀ l : List α, (∀ a ∈ l, p a = true) → l.takeWhile p = l := by
  intro l
  induction l with
  | nil => intro _; rfl
  | cons a t ih =>
    intro h
    have ha := h a (List.mem_cons_self a t)
    have ht := ih (fun x hx => h x (List.mem_cons_of_mem a hx))
    simp [List.takeWhile_cons, ha, ht]

theorem dropWhile_no_comma :
    ∀ s : List Char, s.count ',' ≤ 1 → ',' ∈ s →
      ∀ c ∈ (s.dropWhile notComma).drop 1, c ≠ ',' := by
  intro s
  induction s with
  | nil => intro _ h; cases h
  | cons a t ih =>
    intro hcount hmem c hc
    by_cases ha : a = ','
    · subst ha
      have hd : (List.dropWhile notComma (',' :: t)).drop 1 = t := by
        rw [List.dropWhile_cons]
        simp [notComma]
      rw [hd] at hc
      have hct : t.count ',' = 0 := by
        simp [List.count_cons] at hcount
        omega
      intro hcomma
      subst hcomma
      exact absurd (List.count_eq_zero.mp hct) (fun h => h hc)
    · have hd : (List.dropWhile notComma (a :: t)).drop 1 =
          (List.dropWhile notComma t).drop 1 := by
        rw [List.dropWhile_cons]
        simp [notComma, ha]
      rw [hd] at hc
      have hmt : ',' ∈ t := by
        cases List.mem_cons.mp hmem with
        | inl h => exact absurd h.symm ha
        | inr h => exact h
      have hct : t.count ',' ≤ 1 := by
        rw [List.count_cons] at hcount
        omega
      exact ih hct hmt c hc

theorem sanitize_eq_strip {s : List Char} (h : s.count ',' ≤ 1) :
    sanitizeURL s = stripThroughFirstComma s := by
  unfold sanitizeURL stripThroughFirstComma jsSplitComma1
  by_cases hm : ',' ∈ s
  · rw [if_pos hm, if_pos hm]
    apply takeWhile_of_all
    intro a ha
    have := dropWhile_no_comma s h hm a ha
    simpa [notComma] using this
  · rw [if_neg hm, if_neg hm]

/-- C10: whenever the capture run invokes `onViewsCapture` (result `some`),
the list passed is non-empty and each of its strings has length ≥ 100 and is
some produced data URL with everything up to and including the first comma
removed; outcomes with a missing/zero-size canvas, null context, or a
throwing capture contribute nothing.  The hypothesis reflects that
`canvas.toDataURL('image/png')` yields at most one comma (base64 contains
none). -/
theorem c10_capture_callback_invariants (outs : List CaptureOutcome)
    (hurl : ∀ url : List Char, CaptureOutcome.okURL url ∈ outs → url.count ',' ≤ 1) :
    ∀ captures : List (List Char), captureAllViews outs = some captures →
      captures ≠ [] ∧
        ∀ s ∈ captures, 100 ≤ s.length ∧
          ∃ url : List Char, CaptureOutcome.okURL url ∈ outs ∧
            s = stripThroughFirstComma url := by
  intro captures hrun
  unfold captureAllViews at hrun
  dsimp only at hrun
  by_cases hemp : (outs.filterMap processOutcome).isEmpty
  · rw [if_pos hemp] at hrun
    cases hrun
  · rw [if_neg hemp] at hrun
    have hcap : captures = outs.filterMap processOutcome := by
      exact (Option.some.injEq _ _ ▸ hrun.symm)
    constructor
    · intro hnil
      rw [hcap] at hnil
      rw [hnil] at hemp
      exact hemp rfl
    · intro s hs
      rw [hcap] at hs
      obtain ⟨o, ho, hproc⟩ := List.mem_filterMap.mp hs
      cases o with
      | okURL url =>
        simp only [processOutcome] at hproc
        by_cases hlen : 100 ≤ (sanitizeURL url).length
        · rw [if_pos hlen] at hproc
          have hsu : s = sanitizeURL url := (Option.some.injEq _ _ ▸ hproc).symm
          subst hsu
          refine ⟨hlen, url, ho, ?_⟩
          exact sanitize_eq_strip (hurl url ho)
        · rw [if_neg hlen] at hproc
          cases hproc
      | noCanvas => cases hproc
      | zeroDim => cases hproc
      | noCtx => cases hproc
      | throws => cases hproc

/-- Witness for C10: one valid 101-character payload after the `data:` prefix
plus one skipped outcome of every other kind; the callback receives exactly
the sanitized payload. -/
theorem c10_capture_callback_invariants_witness :
    ([List.replicate 101 'A'] : List (List Char)) ≠ [] ∧
      ∀ s ∈ ([List.replicate 101 'A'] : List (List Char)), 100 ≤ s.length ∧
        ∃ url : List Char,
          CaptureOutcome.okURL url ∈
              [CaptureOutcome.noCanvas, CaptureOutcome.zeroDim, CaptureOutcome.noCtx,
                CaptureOutcome.throws,
                CaptureOutcome.okURL (('d' :: 'a' :: 't' :: 'a' :: ':' :: ',' :: []) ++
                  List.replicate 101 'A')] ∧
            s = stripThroughFirstComma url :=
  c10_capture_callback_invariants
    [CaptureOutcome.noCanvas, CaptureOutcome.zeroDim, CaptureOutcome.noCtx,
      CaptureOutcome.throws,
      CaptureOutcome.okURL (('d' :: 'a' :: 't' :: 'a' :: ':' :: ',' :: []) ++
        List.replicate 101 'A')]
    (by
      intro url hmem
      simp only [List.mem_cons, List.not_mem_nil, or_false] at hmem
      rcases hmem with h | h | h | h | h
      · cases h
      · cases h
      · cases h
      · cases h
      · cases h
        decide)
    [List.replicate 101 'A'] (by decide)

/-! ### Backend normalizer (spec-modelled; `backend/inference/neu_inference.py`
is referenced by `verify_setup.sh` and the docs but absent from `src/`) -/

/-- A raw captured view: an arbitrary-size RGB raster (§3 RawView). -/
structure RawView where
  width : ℕ
  height : ℕ
  pix : ℕ → ℕ → Pix

/-- The canonical normalized tensor (§3 NormalizedImage): the spatial shape
200×200 and the trailing channel axis of size 1 are carried by the type; the
entries model the float32 values exactly. -/
abbrev NormalizedImage := Fin 200 → Fin 200 → Fin 1 → ℚ

/-- Failure of the Normalizer on a malformed raster (§7). -/
inductive NormError
  | invalidRaster
deriving DecidableEq

/-- Failure of the aggregator when no view survives (§7). -/
inductive InferError
  | noValidViews
deriving DecidableEq

/-- The source lines contributing to output index `i` when resizing `n`
source lines to `out` output lines by area interpolation; never empty, and
all indices are below `n` whenever `0 < n` and `i < out`. -/
def blockIdx (n out i : ℕ) : List ℕ :=
  let lo := i * n / out
  let hi := max ((i + 1) * n / out) (lo + 1)
  (List.range (hi - lo)).map (lo + ·)

/-- Modelled from the spec (§4.1 step 2): spatial resize of the 8-bit
grayscale raster to 200×200 (the spec allows any bilinear/area kernel; area
interpolation is used), each output cell an 8-bit store of its source-block
mean. -/
def resizeArea (h w : ℕ) (g : ℕ → ℕ → ℤ) : Fin 200 → Fin 200 → ℤ := fun i j =>
  let vals := (blockIdx h 200 i.val).flatMap fun r =>
    (blockIdx w 200 j.val).map fun c => g r c
  clampU8 ((vals.sum : ℚ) / vals.length)

/-- Modelled from the spec (§4.1): the Normalizer of
`backend/inference/neu_inference.py` (absent from `src/`): luminance
conversion first, area resize to 200×200, cast and divide by 255, trailing
channel axis of size 1; fails with `InvalidRasterError` on zero width or
height. -/
def normalize (v : RawView) : Except NormError NormalizedImage :=
  if v.height = 0 ∨ v.width = 0 then .error .invalidRaster
  else .ok fun i j _ =>
    (resizeArea v.height v.width (fun r c => clampU8 (lumaQ (v.pix r c))) i j : ℚ) / 255

/-- C1: on every valid raster (positive dimensions) the normalization
pipeline succeeds and produces the canonical tensor — spatial shape 200×200
with a trailing channel axis of size 1 (carried by `NormalizedImage`'s
type), numeric (float32-modelling) entries, every value in `[0, 1]`. -/
theorem c1_normalize_contract (v : RawView) (hh : v.height ≠ 0) (hw : v.width ≠ 0) :
    ∃ img : NormalizedImage, normalize v = .ok img ∧
      ∀ (i j : Fin 200) (c : Fin 1), 0 ≤ img i j c ∧ img i j c ≤ 1 := by
  unfold normalize
  rw [if_neg (by simp [hh, hw])]
  refine ⟨_, rfl, ?_⟩
  intro i j c
  have h0 : 0 ≤ resizeArea v.height v.width (fun r c => clampU8 (lumaQ (v.pix r c))) i j :=
    clampU8_nonneg _
  have h255 : resizeArea v.height v.width (fun r c => clampU8 (lumaQ (v.pix r c))) i j ≤ 255 :=
    clampU8_le _
  constructor
  · apply div_nonneg _ (by norm_num)
    exact_mod_cast h0
  · rw [div_le_one (by norm_num)]
    exact_mod_cast h255

/-- A valid 1×1 all-black raw view. -/
def testView : RawView := { width := 1, height := 1, pix := fun _ _ => (0, 0, 0) }

/-- Witness for C1 on the concrete raster `testView`. -/
theorem c1_normalize_contract_witness :
    ∃ img : NormalizedImage, normalize testView = .ok img ∧
      ∀ (i j : Fin 200) (c : Fin 1), 0 ≤ img i j c ∧ img i j c ≤ 1 :=
  c1_normalize_contract testView (by decide) (by decide)

/-! ### Fallback classifier (spec-modelled, §4.2) -/

/-- A piece identifier, as its byte string. -/
abbrev PieceId := List ℕ

/-- A distribution over the six defect classes, indexed in declaration
order of `CLASS_NAMES`. -/
abbrev ClassProbs := Fin 6 → ℚ

/-- The fixed six-class label set, in its fixed declaration order. -/
def CLASS_NAMES : List String :=
  ["crazing", "inclusion", "patches", "pitted_surface", "rolled-in_scale", "scratches"]

/-- One step of the rolling 48-bit content hash. -/
def hashStep (acc b : ℕ) : ℕ := (acc * 31 + b) % 281474976710656

/-- Modelled from the spec (§4.2 step 1, §9): the canonical byte encoding of
the normalized pixel data — each float value scaled back to its 8-bit
byte, row-major. -/
def imgBytes (img : NormalizedImage) : List ℕ :=
  (List.finRange 200).flatMap fun i =>
    (List.finRange 200).map fun j => (clampU8 (255 * img i j 0)).toNat

/-- Modelled from the spec (§4.2 step 1): a stable content hash over the
pixel bytes followed by the piece identifier's bytes (order-sensitive). -/
def contentHash (img : NormalizedImage) (pid : PieceId) : ℕ :=
  (imgBytes img ++ pid).foldl hashStep 0

/-- Modelled from the spec (§4.2 step 2, §9): the six non-negative weights
are the six byte windows of the 48-bit digest. -/
def hashWeight (h : ℕ) (i : Fin 6) : ℕ := h / 256 ^ i.val % 256

/-- The sum of the six hash-derived weights. -/
def weightSum (img : NormalizedImage) (pid : PieceId) : ℕ :=
  ∑ i : Fin 6, hashWeight (contentHash img pid) i

/-- Modelled from the spec (§4.2 step 3): normalize the six weights by their
sum, falling back to the uniform distribution when the sum is zero. -/
def fallbackClassify (img : NormalizedImage) (pid : PieceId) : ClassProbs :=
  if weightSum img pid = 0 then fun _ => 1/6
  else fun i => (hashWeight (contentHash img pid) i : ℚ) / (weightSum img pid : ℚ)

/-- C5: the fallback classifier is a pure function of the pixel content and
the piece identifier — two calls on pointwise-identical images and equal
identifiers return identical distributions; no global random generator or
call-order state is involved (none exists in the model). -/
theorem c5_fallback_deterministic (img1 img2 : NormalizedImage) (pid1 pid2 : PieceId)
    (himg : ∀ (i j : Fin 200) (c : Fin 1), img1 i j c = img2 i j c)
    (hpid : pid1 = pid2) :
    fallbackClassify img1 pid1 = fallbackClassify img2 pid2 := by
  have h : img1 = img2 := funext fun i => funext fun j => funext fun c => himg i j c
  rw [h, hpid]

/-- The all-zero normalized image. -/
def zeroImg : NormalizedImage := fun _ _ _ => 0

/-- Witness for C5: two invocations on the all-zero image and the piece
identifier bytes of "TEST" agree. -/
theorem c5_fallback_deterministic_witness :
    fallbackClassify zeroImg [84, 69, 83, 84] = fallbackClassify zeroImg [84, 69, 83, 84] :=
  c5_fallback_deterministic zeroImg zeroImg [84, 69, 83, 84] [84, 69, 83, 84]
    (fun _ _ _ => rfl) rfl

/-- C6: for every input the six probabilities are non-negative and sum to 1
within 1e-6 (in fact exactly), and a zero weight sum yields the uniform
distribution 1/6 instead of a division by zero. -/
theorem c6_fallback_distribution (img : NormalizedImage) (pid : PieceId) :
    (∀ i, 0 ≤ fallbackClassify img pid i) ∧
      |(∑ i : Fin 6, fallbackClassify img pid i) - 1| ≤ 1/1000000 ∧
      (weightSum img pid = 0 → ∀ i, fallbackClassify img pid i = 1/6) := by
  unfold fallbackClassify
  by_cases hs : weightSum img pid = 0
  · rw [if_pos hs]
    refine ⟨fun i => by norm_num, ?_, fun _ i => rfl⟩
    have h6 : (∑ _i : Fin 6, (1/6 : ℚ)) = 1 := by
      rw [Finset.sum_const, Finset.card_univ]
      norm_num
    rw [h6]
    norm_num
  · rw [if_neg hs]
    have hspos : (0 : ℚ) < (weightSum img pid : ℚ) := by
      exact_mod_cast Nat.pos_of_ne_zero hs
    refine ⟨fun i => div_nonneg (Nat.cast_nonneg _) (le_of_lt hspos), ?_, fun h0 => absurd h0 hs⟩
    have hsum :
        (∑ i : Fin 6, ((hashWeight (contentHash img pid) i : ℚ) / (weightSum img pid : ℚ))) = 1 := by
      rw [← Finset.sum_div, div_eq_one_iff_eq (ne_of_gt hspos)]
      unfold weightSum
      push_cast
      rfl
    rw [hsum]
    norm_num

theorem hash_zero_of_all_zero :
    ∀ l : List ℕ, (∀ b ∈ l, b = 0) → l.foldl hashStep 0 = 0 := by
  intro l
  induction l with
  | nil => intro _; rfl
  | cons a t ih =>
    intro h
    have ha : a = 0 := h a (List.mem_cons_self a t)
    rw [List.foldl_cons, ha]
    have h0 : hashStep 0 0 = 0 := by norm_num [hashStep]
    rw [h0]
    exact ih fun b hb => h b (List.mem_cons_of_mem a hb)

theorem imgBytes_zeroImg_all_zero : ∀ b ∈ imgBytes zeroImg, b = 0 := by
  intro b hb
  obtain ⟨i, _, hbi⟩ := List.mem_flatMap.mp hb
  obtain ⟨j, _, hbj⟩ := List.mem_map.mp hbi
  have hc : clampU8 (255 * zeroImg i j 0) = 0 := by
    norm_num [zeroImg, clampU8, rhe]
  rw [← hbj, hc]
  rfl

theorem weightSum_zeroImg : weightSum zeroImg [] = 0 := by
  have hh : contentHash zeroImg [] = 0 := by
    unfold contentHash
    rw [List.append_nil]
    exact hash_zero_of_all_zero _ imgBytes_zeroImg_all_zero
  unfold weightSum
  rw [hh]
  simp [hashWeight]

/-- Witness for C6: on the all-zero image with an empty piece identifier the
weight sum degenerates to zero and the classifier returns exactly the
uniform distribution. -/
theorem c6_fallback_distribution_witness :
    (∀ i, 0 ≤ fallbackClassify zeroImg [] i) ∧
      (∀ i : Fin 6, fallbackClassify zeroImg [] i = 1/6) :=
  ⟨(c6_fallback_distribution zeroImg []).1,
    (c6_fallback_distribution zeroImg []).2.2 weightSum_zeroImg⟩

/-! ### View aggregator (spec-modelled, §4.4) -/

/-- The per-piece verdict (§3 PieceVerdict): the predicted class is the
index into `CLASS_NAMES`. -/
structure Verdict where
  predicted_class : Fin 6
  class_probs : ClassProbs
  anomaly_score : ℚ
deriving DecidableEq

/-- First index attaining the maximum probability (np.argmax semantics:
a later index replaces the best only when strictly greater, so ties resolve
to the earlier-declared class). -/
def argmax6 (p : ClassProbs) : Fin 6 :=
  (List.finRange 6).foldl (fun best i => if p best < p i then i else best) 0

/-- Pointwise sum of two distributions (one numpy vector addition). -/
def vecAdd (a b : ClassProbs) : ClassProbs := fun c => a c + b c

/-- Sum of a list of per-view distributions, as the fold of vector adds. -/
def sumVec (l : List ClassProbs) : ClassProbs := l.foldl vecAdd fun _ => 0

/-- The per-class mean of a list of distributions (np.mean over axis 0). -/
def meanProbs (l : List ClassProbs) : ClassProbs := fun c => sumVec l c / l.length

/-- Assemble a verdict from aggregated probabilities: argmax class, the
distribution itself, anomaly score 100× the top aggregated probability. -/
def verdictOf (p : ClassProbs) : Verdict :=
  { predicted_class := argmax6 p
    class_probs := p
    anomaly_score := 100 * p (argmax6 p) }

/-- Normalization as an `Option` (the aggregator's skip-and-continue view
of a failed view, §4.4 step 3). -/
def normOpt (v : RawView) : Option NormalizedImage := (normalize v).toOption

/-- The normalized image of a view that is known to normalize successfully. -/
def normD (v : RawView) : NormalizedImage := (normOpt v).getD zeroImg

/-- Modelled from the spec (§4.4): the ViewAggregator of the backend (absent
from `src/`): normalize every view, skip rejected ones, classify the
survivors, mean-aggregate per class, and fail with `NoValidViewsError`
when no view survives (in particular on an empty view sequence). -/
def runInference (classify : NormalizedImage → PieceId → ClassProbs)
    (views : List RawView) (pid : PieceId) : Except InferError Verdict :=
  if ((views.filterMap normOpt).map fun img => classify img pid).isEmpty
  then .error .noValidViews
  else .ok (verdictOf (meanProbs ((views.filterMap normOpt).map fun img => classify img pid)))

theorem foldl_vecAdd_apply :
    ∀ (l : List ClassProbs) (init : ClassProbs) (c : Fin 6),
      (l.foldl vecAdd init) c = init c + (l.map fun p => p c).sum := by
  intro l
  induction l with
  | nil => intro init c; simp
  | cons p t ih =>
    intro init c
    rw [List.foldl_cons, ih, List.map_cons, List.sum_cons]
    show init c + p c + _ = _
    ring

theorem sumVec_apply (l : List ClassProbs) (c : Fin 6) :
    sumVec l c = (l.map fun p => p c).sum := by
  unfold sumVec
  rw [foldl_vecAdd_apply]
  simp

theorem sum_le_length_of_le_one :
    ∀ l : List ℚ, (∀ x ∈ l, x ≤ 1) → l.sum ≤ l.length := by
  intro l
  induction l with
  | nil => intro _; simp
  | cons a t ih =>
    intro h
    rw [List.sum_cons, List.length_cons]
    push_cast
    have ha := h a (List.mem_cons_self a t)
    have ht := ih fun x hx => h x (List.mem_cons_of_mem a hx)
    linarith

theorem meanProbs_bounds (l : List ClassProbs) (hne : l ≠ [])
    (h01 : ∀ q ∈ l, ∀ c, 0 ≤ q c ∧ q c ≤ 1) :
    ∀ c, 0 ≤ meanProbs l c ∧ meanProbs l c ≤ 1 := by
  intro c
  have hlen : (0 : ℚ) < l.length := by
    have : 0 < l.length := List.length_pos.mpr hne
    exact_mod_cast this
  unfold meanProbs
  rw [sumVec_apply]
  constructor
  · apply div_nonneg _ (le_of_lt hlen)
    apply List.sum_nonneg
    intro x hx
    obtain ⟨q, hq, hqx⟩ := List.mem_map.mp hx
    rw [← hqx]
    exact (h01 q hq c).1
  · rw [div_le_one hlen]
    have := sum_le_length_of_le_one (l.map fun p => p c) ?_
    · simpa [List.length_map] using this
    · intro x hx
      obtain ⟨q, hq, hqx⟩ := List.mem_map.mp hx
      rw [← hqx]
      exact (h01 q hq c).2

theorem fallback_mem_unit (img : NormalizedImage) (pid : PieceId) :
    ∀ i, 0 ≤ fallbackClassify img pid i ∧ fallbackClassify img pid i ≤ 1 := by
  intro i
  unfold fallbackClassify
  by_cases hs : weightSum img pid = 0
  · rw [if_pos hs]
    norm_num
  · rw [if_neg hs]
    have hspos : (0 : ℚ) < (weightSum img pid : ℚ) := by
      exact_mod_cast Nat.pos_of_ne_zero hs
    refine ⟨div_nonneg (Nat.cast_nonneg _) (le_of_lt hspos), ?_⟩
    rw [div_le_one hspos]
    have hle : hashWeight (contentHash img pid) i ≤ weightSum img pid :=
      Finset.single_le_sum (fun j _ => Nat.zero_le _) (Finset.mem_univ i)
    exact_mod_cast hle

theorem foldl_argmax_ge (p : ClassProbs) :
    ∀ (l : List (Fin 6)) (b : Fin 6),
      p b ≤ p (l.foldl (fun best i => if p best < p i then i else best) b) ∧
      ∀ i ∈ l, p i ≤ p (l.foldl (fun best i => if p best < p i then i else best) b) := by
  intro l
  induction l with
  | nil => intro b; exact ⟨le_refl _, fun i hi => absurd hi (List.not_mem_nil i)⟩
  | cons a t ih =>
    intro b
    rw [List.foldl_cons]
    by_cases hba : p b < p a
    · rw [if_pos hba]
      refine ⟨le_trans (le_of_lt hba) (ih a).1, fun i hi => ?_⟩
      cases List.mem_cons.mp hi with
      | inl h => rw [h]; exact (ih a).1
      | inr h => exact (ih a).2 i h
    · rw [if_neg hba]
      refine ⟨(ih b).1, fun i hi => ?_⟩
      cases List.mem_cons.mp hi with
      | inl h => rw [h]; exact le_trans (not_lt.mp hba) (ih b).1
      | inr h => exact (ih b).2 i h

theorem argmax6_ge (p : ClassProbs) : ∀ i, p i ≤ p (argmax6 p) := fun i =>
  (foldl_argmax_ge p (List.finRange 6) 0).2 i (List.mem_finRange i)

theorem filterMap_normOpt_eq (views : List RawView)
    (h : ∀ w ∈ views, (normOpt w).isSome = true) :
    views.filterMap normOpt = views.map normD := by
  induction views with
  | nil => rfl
  | cons a t ih =>
    have ha := h a (List.mem_cons_self a t)
    obtain ⟨img, himg⟩ := Option.isSome_iff_exists.mp ha
    have ht := ih fun w hw => h w (List.mem_cons_of_mem a hw)
    simp only [List.filterMap_cons, himg, List.map_cons, ht]
    congr 1
    unfold normD
    rw [himg]
    rfl

theorem run_ok_char (classify : NormalizedImage → PieceId → ClassProbs)
    (views : List RawView) (pid : PieceId)
    (hne : ((views.filterMap normOpt).map fun img => classify img pid) ≠ []) :
    runInference classify views pid =
      .ok (verdictOf (meanProbs ((views.filterMap normOpt).map fun img => classify img pid))) := by
  unfold runInference
  rw [if_neg fun h => hne (List.isEmpty_iff.mp h)]

/-- C3: whenever every supplied view normalizes successfully, the aggregated
probability of each class is exactly the unweighted arithmetic mean of that
class's per-view probabilities, `(1/N) · Σ view probabilities`, with `N` the
number of views. -/
theorem c3_aggregate_mean (classify : NormalizedImage → PieceId → ClassProbs)
    (views : List RawView) (pid : PieceId)
    (hviews : views ≠ []) (hok : ∀ w ∈ views, (normOpt w).isSome = true) :
    ∃ v : Verdict, runInference classify views pid = .ok v ∧
      ∀ c, v.class_probs c =
        (views.map fun w => classify (normD w) pid c).sum / views.length := by
  have hfm := filterMap_normOpt_eq views hok
  have hne : ((views.filterMap normOpt).map fun img => classify img pid) ≠ [] := by
    rw [hfm, List.map_map]
    intro h
    exact hviews (List.map_eq_nil_iff.mp h)
  refine ⟨_, run_ok_char classify views pid hne, ?_⟩
  intro c
  show meanProbs _ c = _
  unfold meanProbs
  rw [sumVec_apply, hfm, List.map_map, List.map_map, List.length_map, List.length_map]
  rfl

/-- Witness for C3 on one concrete valid view. -/
theorem c3_aggregate_mean_witness :
    ∃ v : Verdict, runInference fallbackClassify [testView] [80, 49] = .ok v ∧
      ∀ c, v.class_probs c =
        (([testView].map fun w => fallbackClassify (normD w) [80, 49] c).sum) /
          ([testView] : List RawView).length :=
  c3_aggregate_mean fallbackClassify [testView] [80, 49] (by simp)
    (by
      intro w hw
      rw [List.mem_singleton] at hw
      subst hw
      rfl)

/-- C4: with an empty view sequence — and likewise whenever every supplied
view is rejected by normalization — the aggregator returns
`NoValidViewsError` and never a verdict. -/
theorem c4_no_valid_views (classify : NormalizedImage → PieceId → ClassProbs)
    (views : List RawView) (pid : PieceId)
    (h : ∀ w ∈ views, (normOpt w).isSome = false) :
    runInference classify views pid = .error .noValidViews := by
  have hfm : views.filterMap normOpt = [] := by
    induction views with
    | nil => rfl
    | cons a t ih =>
      have ha := h a (List.mem_cons_self a t)
      have hnone : normOpt a = none := by
        cases hcase : normOpt a with
        | none => rfl
        | some x => rw [hcase] at ha; cases ha
      simp only [List.filterMap_cons, hnone]
      exact ih fun w hw => h w (List.mem_cons_of_mem a hw)
  unfold runInference
  rw [hfm]
  rfl

/-- A malformed raw view: zero width and height. -/
def zeroView : RawView := { width := 0, height := 0, pix := fun _ _ => (0, 0, 0) }

/-- Witness for C4: the empty sequence and a single all-rejected view, each
with piece identifier "P1". -/
theorem c4_no_valid_views_witness :
    runInference fallbackClassify [] [80, 49] = .error .noValidViews ∧
      runInference fallbackClassify [zeroView] [80, 49] = .error .noValidViews :=
  ⟨c4_no_valid_views fallbackClassify [] [80, 49] (by intro w hw; cases hw),
    c4_no_valid_views fallbackClassify [zeroView] [80, 49]
      (by
        intro w hw
        rw [List.mem_singleton] at hw
        subst hw
        rfl)⟩

theorem run_eq_of_perm_preds {l1 l2 : List ClassProbs} (hp : l1.Perm l2) :
    (if l1.isEmpty then (Except.error InferError.noValidViews) else .ok (verdictOf (meanProbs l1))) =
      (if l2.isEmpty then (Except.error InferError.noValidViews) else .ok (verdictOf (meanProbs l2))) := by
  cases l1 with
  | nil =>
    have h2 : l2 = [] := List.Perm.eq_nil hp.symm
    rw [h2]
  | cons a t =>
    cases l2 with
    | nil => exact absurd (List.Perm.eq_nil hp) (List.cons_ne_nil a t)
    | cons b s =>
      have hm : meanProbs (a :: t) = meanProbs (b :: s) := by
        funext c
        unfold meanProbs
        rw [sumVec_apply, sumVec_apply, (hp.map fun p => p c).sum_eq, hp.length_eq]
      simp only [List.isEmpty_cons, hm]

/-- C7: aggregation is order-independent — permuting the view sequence
yields the identical result (same predicted class, same per-class
probabilities, same anomaly score; and the same error on empty input). -/
theorem c7_aggregate_perm_invariant (classify : NormalizedImage → PieceId → ClassProbs)
    (views1 views2 : List RawView) (pid : PieceId) (hperm : views1.Perm views2) :
    runInference classify views1 pid = runInference classify views2 pid := by
  unfold runInference
  exact run_eq_of_perm_preds ((hperm.filterMap normOpt).map fun img => classify img pid)

/-- A second valid 1×1 raw view, pure red. -/
def testViewRed : RawView := { width := 1, height := 1, pix := fun _ _ => (255, 0, 0) }

/-- Witness for C7: swapping two concrete views leaves the verdict
unchanged. -/
theorem c7_aggregate_perm_invariant_witness :
    runInference fallbackClassify [testView, testViewRed] [80, 49] =
      runInference fallbackClassify [testViewRed, testView] [80, 49] :=
  c7_aggregate_perm_invariant fallbackClassify [testView, testViewRed]
    [testViewRed, testView] [80, 49] (List.Perm.swap testViewRed testView [])

/-- C8: every verdict the aggregator produces (with the fallback classifier)
has `anomaly_score` equal to 100× the maximum aggregated class probability —
the label set has no non-defect class — and the score lies in `[0, 100]`. -/
theorem c8_anomaly_score_max (views : List RawView) (pid : PieceId)
    (hok : ∃ w ∈ views, (normOpt w).isSome = true) :
    ∃ v : Verdict, runInference fallbackClassify views pid = .ok v ∧
      v.anomaly_score = 100 * v.class_probs (argmax6 v.class_probs) ∧
      (∀ i, v.class_probs i ≤ v.class_probs (argmax6 v.class_probs)) ∧
      0 ≤ v.anomaly_score ∧ v.anomaly_score ≤ 100 := by
  obtain ⟨w, hw, hwok⟩ := hok
  obtain ⟨img, himg⟩ := Option.isSome_iff_exists.mp hwok
  have hmem : img ∈ views.filterMap normOpt := List.mem_filterMap.mpr ⟨w, hw, himg⟩
  have hne : ((views.filterMap normOpt).map fun i => fallbackClassify i pid) ≠ [] :=
    List.ne_nil_of_mem (List.mem_map_of_mem _ hmem)
  have hq01 : ∀ q ∈ ((views.filterMap normOpt).map fun i => fallbackClassify i pid),
      ∀ c, 0 ≤ q c ∧ q c ≤ 1 := by
    intro q hq c
    obtain ⟨im, _, himq⟩ := List.mem_map.mp hq
    rw [← himq]
    exact fallback_mem_unit im pid c
  have hb := meanProbs_bounds ((views.filterMap normOpt).map fun i => fallbackClassify i pid)
    hne hq01
  have h1 := (hb (argmax6 (meanProbs ((views.filterMap normOpt).map
    fun i => fallbackClassify i pid)))).1
  have h2 := (hb (argmax6 (meanProbs ((views.filterMap normOpt).map
    fun i => fallbackClassify i pid)))).2
  refine ⟨_, run_ok_char fallbackClassify views pid hne, rfl, argmax6_ge _, ?_, ?_⟩
  · show (0 : ℚ) ≤ 100 * meanProbs ((views.filterMap normOpt).map
      fun i => fallbackClassify i pid) (argmax6 (meanProbs ((views.filterMap normOpt).map
        fun i => fallbackClassify i pid)))
    linarith
  · show (100 : ℚ) * meanProbs ((views.filterMap normOpt).map
      fun i => fallbackClassify i pid) (argmax6 (meanProbs ((views.filterMap normOpt).map
        fun i => fallbackClassify i pid))) ≤ 100
    linarith

/-- Witness for C8 on one concrete valid view. -/
theorem c8_anomaly_score_max_witness :
    ∃ v : Verdict, runInference fallbackClassify [testView] [80, 49] = .ok v ∧
      v.anomaly_score = 100 * v.class_probs (argmax6 v.class_probs) ∧
      (∀ i, v.class_probs i ≤ v.class_probs (argmax6 v.class_probs)) ∧
      0 ≤ v.anomaly_score ∧ v.anomaly_score ≤ 100 :=
  c8_anomaly_score_max [testView] [80, 49] ⟨testView, List.mem_singleton.mpr rfl, rfl⟩

end NeuQC
